import Mathlib

/-!
Verification of the PCG32 pseudo-random generator and its seeding hierarchy as
implemented in the MC_Random_Walks repository, together with the lattice-gas
update step of the diffusion-coefficient program.

All machine integers are modelled as `Nat` with explicit reduction modulo
`2 ^ 64` (for `uint64_t`) or `2 ^ 32` (for `uint32_t`) wherever the C code
relies on wrapping unsigned arithmetic.
-/

/-- PCG32 generator state (`struct pcg32_random_t`): a 64-bit LCG state and a
64-bit stream increment. Fields hold the values of the corresponding C
struct members. -/
structure pcg32_random_t where
  state : Nat
  inc : Nat
deriving DecidableEq

/-- The C expression `(xorshifted >> rot) | (xorshifted << ((-rot) & 31))`
evaluated in `uint32_t` arithmetic: the unary minus wraps modulo `2 ^ 32` and
the left shift truncates to 32 bits. -/
def rotExprC (xorshifted rot : Nat) : Nat :=
  (xorshifted >>> rot) ||| ((xorshifted <<< (((2 ^ 32 - rot) % 2 ^ 32) &&& 31)) % 2 ^ 32)

/-- `pcg32_random_r` from `src/03_diffusion_coefficient/src/pcg32.c` (verbatim
copies live in `src/01_1d_random_walk/src/main_dat.c` and
`src/02_2d_random_walk/src/2d_ran_walk.c`): advance the LCG state with
`oldstate * 6364136223846793005 + (rng->inc | 1)` and return the XSH-RR output
computed from the pre-transition state. The `(uint32_t)` casts of `xorshifted`
and `rot` are the `% 2 ^ 32` reductions. -/
def pcg32_random_r (rng : pcg32_random_t) : Nat × pcg32_random_t :=
  let oldstate := rng.state
  let state' := (oldstate * 6364136223846793005 + (rng.inc ||| 1)) % 2 ^ 64
  let xorshifted := (((oldstate >>> 18) ^^^ oldstate) >>> 27) % 2 ^ 32
  let rot := (oldstate >>> 59) % 2 ^ 32
  (rotExprC xorshifted rot, { state := state', inc := rng.inc })

/-- `pcg32_random` from the two `seed_generator.c` files: identical output
permutation, but the state transition adds `rng_state.inc` without the
defensive `| 1`. -/
def pcg32_random (rng : pcg32_random_t) : Nat × pcg32_random_t :=
  let oldstate := rng.state
  let state' := (oldstate * 6364136223846793005 + rng.inc) % 2 ^ 64
  let xorshifted := (((oldstate >>> 18) ^^^ oldstate) >>> 27) % 2 ^ 32
  let rot := (oldstate >>> 59) % 2 ^ 32
  (rotExprC xorshifted rot, { state := state', inc := rng.inc })

/-- `pcg32_srandom_r` (pcg32.c / main_dat.c / 2d_ran_walk.c): `state = 0`,
`inc = (initseq << 1) | 1`, one warm-up step, `state += initstate`, second
warm-up step. The `uint64_t` parameters wrap, hence the `% 2 ^ 64` on the
shifted sequence selector and on the added `initstate`. -/
def pcg32_srandom_r (initstate initseq : Nat) : pcg32_random_t :=
  let rng0 : pcg32_random_t := { state := 0, inc := ((initseq <<< 1) % 2 ^ 64) ||| 1 }
  let rng1 := (pcg32_random_r rng0).2
  let rng2 : pcg32_random_t := { rng1 with state := (rng1.state + initstate % 2 ^ 64) % 2 ^ 64 }
  (pcg32_random_r rng2).2

/-- `pcg32_srandom` from the two `seed_generator.c` files: the same seeding
procedure, with the warm-up steps going through `pcg32_random` (no `| 1`). -/
def pcg32_srandom (initstate initseq : Nat) : pcg32_random_t :=
  let rng0 : pcg32_random_t := { state := 0, inc := ((initseq <<< 1) % 2 ^ 64) ||| 1 }
  let rng1 := (pcg32_random rng0).2
  let rng2 : pcg32_random_t := { rng1 with state := (rng1.state + initstate % 2 ^ 64) % 2 ^ 64 }
  (pcg32_random rng2).2

/-- Reference 32-bit rotate-right (the "plain rotate-right" the specification
describes): `(x >> n) | (x << (32 - n))` truncated to 32 bits. -/
def ror32 (x n : Nat) : Nat :=
  ((x >>> n) ||| (x <<< (32 - n))) % 2 ^ 32

/-- `myrand` (pcg32.c / main_dat.c / 2d_ran_walk.c):
`(double) pcg32_random_r(&state) / ((double) UINT32_MAX + 1.0)`. Every
floating-point operation involved is exact in IEEE double precision (the
numerator is an integer below `2 ^ 32 ≤ 2 ^ 53`, `UINT32_MAX` is exactly
representable, and the divisor is the power of two `2 ^ 32`), so the returned
double is modelled faithfully by its rational value. -/
def myrand (rng : pcg32_random_t) : ℚ × pcg32_random_t :=
  let r := pcg32_random_r rng
  ((r.1 : ℚ) / ((2 ^ 32 - 1 : ℚ) + 1), r.2)

/-- One `pcg32_random_r` advance, keeping only the generator state. -/
def pcgStepR (st : pcg32_random_t) : pcg32_random_t := (pcg32_random_r st).2

/-- One `pcg32_random` advance (the seed-generator variant), keeping only the
generator state. -/
def pcgStepB (st : pcg32_random_t) : pcg32_random_t := (pcg32_random st).2

/-- The list of the first `n` outputs of `pcg32_random_r` from a given state. -/
def pcgOutputs : Nat → pcg32_random_t → List Nat
  | 0, _ => []
  | n + 1, rng => (pcg32_random_r rng).1 :: pcgOutputs n (pcg32_random_r rng).2

/-- The XSH-RR output permutation as a function of the 64-bit state alone
(the value both `pcg32_random_r` and `pcg32_random` return). -/
def pcgOut (s : Nat) : Nat :=
  rotExprC ((((s >>> 18) ^^^ s) >>> 27) % 2 ^ 32) ((s >>> 59) % 2 ^ 32)

/-- The bare LCG state transition `s * a + c mod 2 ^ 64` shared by both
generator variants (with `a` the PCG multiplier and `c` the increment). -/
def lcgStep (a c s : Nat) : Nat := (s * a + c) % 2 ^ 64

/-- Logarithmic-time evaluation of `(lcgStep a c)^[n]` by repeated squaring of
the affine map; `fuel` bounds the binary length of `n`. -/
def lcgJump : Nat → Nat → Nat → Nat → Nat → Nat
  | 0, _, _, _, s => s
  | fuel + 1, a, c, n, s =>
    if n = 0 then s
    else
      let t := lcgJump fuel ((a * a) % 2 ^ 64) ((a * c + c) % 2 ^ 64) (n / 2) s
      if n % 2 = 1 then (t * a + c) % 2 ^ 64 else t

/-- Geometric sum `1 + a + a^2 + ... + a^(n-1)`; `lcgGeomSum a (n+1) =
lcgGeomSum a n * a + 1`. -/
def lcgGeomSum (a : Nat) : Nat → Nat
  | 0 => 0
  | n + 1 => lcgGeomSum a n * a + 1

/-- The state of the master seed generator immediately before the `n`-th pair
of `generate_seed()` calls (pair `n` consumes master outputs `2n` and
`2n + 1`). -/
def masterStateBeforePair (initstate initseq n : Nat) : pcg32_random_t :=
  pcgStepB^[2 * n] (pcg32_srandom initstate initseq)

/-- The `n`-th `(seed_a, seed_b)` pair produced by two successive
`generate_seed()` calls on the master generator. -/
def seedPairAt (initstate initseq n : Nat) : Nat × Nat :=
  let st := masterStateBeforePair initstate initseq n
  ((pcg32_random st).1, (pcg32_random (pcg32_random st).2).1)

/-- PRNG-relevant events performed by the repository's `main` functions. -/
inductive RngEvent where
  | seedgenInit (state seq : Nat)
  | generateSeed (value : Nat)
  | myrandInit (seed1 seed2 : Nat)
  | runDraws (run : Nat)
deriving DecidableEq

/-- Recognizer for worker-initialization events. -/
def isMyrandInit : RngEvent → Bool
  | RngEvent.myrandInit _ _ => true
  | _ => false

/-- The run loop of `main` in `src/01_1d_random_walk/src/main_dat.c`
lines 87-120 (and identically `src/02_2d_random_walk/src/2d_ran_walk.c`
lines 215-281): each iteration calls `generate_seed()` twice, then
`myrand_init(seed1, seed2)`, then consumes that run's uniform draws.
`run` is the index of the next run, `rest` the number of runs left, and the
master generator state threads through the `generate_seed()` calls. -/
def walkRunLoop : Nat → Nat → pcg32_random_t → List RngEvent
  | _, 0, _ => []
  | run, rest + 1, m =>
    let r1 := pcg32_random m
    let r2 := pcg32_random r1.2
    RngEvent.generateSeed r1.1 :: RngEvent.generateSeed r2.1
      :: RngEvent.myrandInit r1.1 r2.1 :: RngEvent.runDraws run
      :: walkRunLoop (run + 1) rest r2.2

/-- PRNG-relevant trace of `main` in `main_dat.c`: one
`seedgen_init(12345, 67890)` followed by the per-run seeding loop. -/
def mainDatRngTrace (runs : Nat) : List RngEvent :=
  RngEvent.seedgenInit 12345 67890 :: walkRunLoop 0 runs (pcg32_srandom 12345 67890)

/-- PRNG-relevant trace of `main` in
`src/03_diffusion_coefficient/src/diff_coef.c` lines 321-350: one
`seedgen_init(12345, 67890)`, two `generate_seed()` calls, a single
`myrand_init(seed1, seed2)`, and then the sample loop consumes draws with no
further seeding. -/
def diffCoefRngTrace (num_samples : Nat) : List RngEvent :=
  let m := pcg32_srandom 12345 67890
  let r1 := pcg32_random m
  let r2 := pcg32_random r1.2
  RngEvent.seedgenInit 12345 67890 :: RngEvent.generateSeed r1.1
    :: RngEvent.generateSeed r2.1 :: RngEvent.myrandInit r1.1 r2.1
    :: (List.range num_samples).map RngEvent.runDraws

/-- The `i`-th 32-bit output of the master seed generator, i.e. the value the
`i+1`-st `generate_seed()` call returns after `seedgen_init(12345, 67890)`. -/
def masterOut (i : Nat) : Nat :=
  (pcg32_random (pcgStepB^[i] (pcg32_srandom 12345 67890))).1

/-- Empty-site marker `MY_EMPTY` of `diff_coef.c` (`#define MY_EMPTY (-1L)`). -/
def MY_EMPTY : Int := -1

/-- The `plusNeighbor` table built in `myInit` of `diff_coef.c`:
`plusNeighbor[i] = i + 1` with `plusNeighbor[L-1] = 0`. -/
def plusNeighbor (L i : Nat) : Nat := if i = L - 1 then 0 else i + 1

/-- The `minusNeighbor` table built in `myInit` of `diff_coef.c`:
`minusNeighbor[i] = i - 1` with `minusNeighbor[0] = L - 1`. -/
def minusNeighbor (L i : Nat) : Nat := if i = 0 then L - 1 else i - 1

/-- The global lattice arrays of `diff_coef.c`, as functions:
`site x y` is `SITE(x, y)` (`MY_EMPTY` or a particle index), `pos p` is
`(POS(p,0), POS(p,1))`, `zeroPos p` is `(ZERO_POS(p,0), ZERO_POS(p,1))`, and
`truePos p` is the unwrapped `(TRUE_POS(p,0), TRUE_POS(p,1))`. -/
structure LatticeState where
  site : Nat → Nat → Int
  pos : Nat → Nat × Nat
  zeroPos : Nat → Nat × Nat
  truePos : Nat → Int × Int

/-- One attempt of the `updateLattice` loop (`diff_coef.c` lines 158-232),
driven by the numerators `r1, r2 < 2 ^ 32` of the two `myrand()` draws:
`p = (long)(myrand() * trueN)` is `r1 * trueN / 2 ^ 32` (the floating-point
product of `r1 / 2 ^ 32` by `trueN` is floored; for the lattice sizes the code
admits the double computation is exact), `dir = (int)(4.0 * myrand())` is
`4 * r2 / 2 ^ 32` (always exact: scaling by 4.0 is exact), the neighbour is
taken through the periodic tables, and the particle hops only when the target
site is empty. -/
def updateAttempt (L trueN : Nat) (st : LatticeState) (r1 r2 : Nat) : LatticeState :=
  let p : Nat := r1 * trueN / 2 ^ 32
  let x := (st.pos p).1
  let y := (st.pos p).2
  let dir : Nat := 4 * r2 / 2 ^ 32
  let nx := if dir = 0 then plusNeighbor L x else if dir = 1 then minusNeighbor L x else x
  let ny := if dir = 2 then plusNeighbor L y else if dir = 3 then minusNeighbor L y else y
  if st.site nx ny ≠ MY_EMPTY then st
  else
    { st with
      site := fun a b =>
        if a = nx ∧ b = ny then (p : Int)
        else if a = x ∧ b = y then MY_EMPTY
        else st.site a b
      pos := fun q => if q = p then (nx, ny) else st.pos q
      truePos := fun q =>
        if q = p then
          if dir = 0 then ((st.truePos p).1 + 1, (st.truePos p).2)
          else if dir = 1 then ((st.truePos p).1 - 1, (st.truePos p).2)
          else if dir = 2 then ((st.truePos p).1, (st.truePos p).2 + 1)
          else ((st.truePos p).1, (st.truePos p).2 - 1)
        else st.truePos q }

/-- `updateLattice(trueN)` (`diff_coef.c` lines 156-252): `trueN` attempts,
each consuming the numerators of two `myrand()` draws, in call order. -/
def updateLattice (L trueN : Nat) (st : LatticeState) (draws : List (Nat × Nat)) : LatticeState :=
  draws.foldl (fun s d => updateAttempt L trueN s d.1 d.2) st

/-- Lattice consistency invariant: every particle index `p < trueN` sits at an
in-range position recorded consistently in both directions, and every lattice
site is either empty or holds such a particle. Distinctness of occupied
particle indices follows since `site (pos p) = p`. -/
def LatticeInv (L trueN : Nat) (st : LatticeState) : Prop :=
  (∀ p, p < trueN →
    (st.pos p).1 < L ∧ (st.pos p).2 < L ∧ st.site (st.pos p).1 (st.pos p).2 = (p : Int))
  ∧ (∀ x y, x < L → y < L →
      st.site x y = MY_EMPTY ∨ ∃ p, p < trueN ∧ st.site x y = (p : Int) ∧ st.pos p = (x, y))

/-- A one-particle lattice state on the 1 × 1 torus, used to instantiate the
update-invariant theorem at a concrete input. -/
def latticeOneParticle : LatticeState where
  site := fun a b => if a = 0 ∧ b = 0 then 0 else MY_EMPTY
  pos := fun _ => (0, 0)
  zeroPos := fun _ => (0, 0)
  truePos := fun _ => (0, 0)

theorem lor_mod_two_pow (a b n : Nat) : (a ||| b) % 2 ^ n = a % 2 ^ n ||| b % 2 ^ n := by
  apply Nat.eq_of_testBit_eq
  intro i
  simp [Nat.testBit_mod_two_pow, Bool.and_or_distrib_left]

theorem even_lor_one {a : Nat} (h : a % 2 = 0) : a ||| 1 = a + 1 := by
  have h2 : a = 2 ^ 1 * (a / 2) := by omega
  calc a ||| 1 = 2 ^ 1 * (a / 2) ||| 1 := by rw [← h2]
    _ = 2 ^ 1 * (a / 2) + 1 := (Nat.mul_add_lt_is_or (by norm_num) _).symm
    _ = a + 1 := by omega

theorem odd_lor_one {a : Nat} (h : a % 2 = 1) : a ||| 1 = a := by
  have h2 : (2 * (a / 2)) ||| 1 = 2 * (a / 2) + 1 := even_lor_one (by omega)
  have h3 : a = (2 * (a / 2)) ||| 1 := by rw [h2]; omega
  rw [h3, Nat.or_assoc, Nat.or_self]

theorem lor_one_mod_two (a : Nat) : (a ||| 1) % 2 = 1 := by
  rcases Nat.mod_two_eq_zero_or_one a with h | h
  · rw [even_lor_one h]; omega
  · rw [odd_lor_one h]; exact h

theorem rotExprC_eq_ror32 {x n : Nat} (hx : x < 2 ^ 32) (hn : n ≤ 31) :
    rotExprC x n = ror32 x n := by
  have hxr : ∀ m : Nat, x >>> m % 2 ^ 32 = x >>> m := by
    intro m
    exact Nat.mod_eq_of_lt (lt_of_le_of_lt (by rw [Nat.shiftRight_eq_div_pow]; exact Nat.div_le_self _ _) hx)
  rcases Nat.eq_zero_or_pos n with rfl | hpos
  · have hs : (((2 ^ 32 - 0) % 2 ^ 32) &&& 31) = 0 := by decide
    have hss : (x <<< 32) % 2 ^ 32 = 0 := by
      rw [Nat.shiftLeft_eq, Nat.mul_mod_left]
    unfold rotExprC ror32
    rw [hs, Nat.shiftLeft_zero, Nat.shiftRight_zero, Nat.mod_eq_of_lt hx, Nat.or_self,
      lor_mod_two_pow, hss, Nat.or_zero]
    exact (Nat.mod_eq_of_lt hx).symm
  · have h32 : (2 : Nat) ^ 32 = 4294967296 := by norm_num
    have hlt : 2 ^ 32 - n < 2 ^ 32 := by omega
    have hs : ((2 ^ 32 - n) % 2 ^ 32) &&& 31 = 32 - n := by
      rw [Nat.mod_eq_of_lt hlt, show (31 : Nat) = 2 ^ 5 - 1 from by norm_num,
        Nat.and_pow_two_sub_one_eq_mod]
      have h5 : (2 : Nat) ^ 5 = 32 := by norm_num
      rw [h5, h32]
      omega
    unfold rotExprC ror32
    rw [hs, lor_mod_two_pow, hxr]

theorem pcg32_random_r_fst (st : pcg32_random_t) : (pcg32_random_r st).1 = pcgOut st.state := rfl

theorem pcg32_random_fst (st : pcg32_random_t) : (pcg32_random st).1 = pcgOut st.state := rfl

theorem pcg32_random_r_snd (st : pcg32_random_t) :
    (pcg32_random_r st).2
      = ⟨(st.state * 6364136223846793005 + (st.inc ||| 1)) % 2 ^ 64, st.inc⟩ := rfl

theorem pcg32_random_snd (st : pcg32_random_t) :
    (pcg32_random st).2 = ⟨lcgStep 6364136223846793005 st.inc st.state, st.inc⟩ := rfl

theorem ror32_zero {x : Nat} (hx : x < 2 ^ 32) : ror32 x 0 = x := by
  unfold ror32
  rw [Nat.shiftRight_zero, Nat.sub_zero, lor_mod_two_pow, Nat.shiftLeft_eq, Nat.mul_mod_left,
    Nat.or_zero]
  exact Nat.mod_eq_of_lt hx

theorem pcgOut_lt (s : Nat) : pcgOut s < 2 ^ 32 := by
  unfold pcgOut rotExprC
  apply Nat.or_lt_two_pow
  · exact lt_of_le_of_lt
      (by rw [Nat.shiftRight_eq_div_pow]; exact Nat.div_le_self _ _)
      (Nat.mod_lt _ (by norm_num))
  · exact Nat.mod_lt _ (by norm_num)

/-- C1: `pcg32_random_r` (and its verbatim copies) advances the state to
`old * 6364136223846793005 + (inc | 1)` in wrapping 64-bit arithmetic, leaves
the increment untouched, and returns the 32-bit truncation of
`((old >> 18) ^ old) >> 27` rotated right by `old >> 59`; moreover the C
rotate expression `(x >> rot) | (x << ((-rot) & 31))` agrees with the plain
rotate-right for every `rot` in `[0, 31]`, and for `rot = 0` it returns `x`
itself. -/
theorem pcg32_random_r_spec (st : pcg32_random_t) (h : st.state < 2 ^ 64) :
    (pcg32_random_r st).2.state
        = (st.state * 6364136223846793005 + (st.inc ||| 1)) % 2 ^ 64
    ∧ (pcg32_random_r st).2.inc = st.inc
    ∧ (pcg32_random_r st).1
        = ror32 ((((st.state >>> 18) ^^^ st.state) >>> 27) % 2 ^ 32) (st.state >>> 59)
    ∧ (∀ x rot, x < 2 ^ 32 → rot ≤ 31 → rotExprC x rot = ror32 x rot)
    ∧ (∀ x, x < 2 ^ 32 → rotExprC x 0 = x) := by
  refine ⟨rfl, rfl, ?_, fun x rot hx hr => rotExprC_eq_ror32 hx hr, fun x hx => ?_⟩
  · have h59 : (2 : Nat) ^ 59 = 576460752303423488 := by norm_num
    have h64 : (2 : Nat) ^ 64 = 18446744073709551616 := by norm_num
    have hrot : st.state >>> 59 < 32 := by
      rw [Nat.shiftRight_eq_div_pow, h59]
      omega
    rw [pcg32_random_r_fst]
    unfold pcgOut
    rw [Nat.mod_eq_of_lt (lt_trans hrot (by norm_num))]
    exact rotExprC_eq_ror32 (Nat.mod_lt _ (by norm_num)) (by omega)
  · rw [rotExprC_eq_ror32 hx (by norm_num), ror32_zero hx]

theorem pcg32_random_r_spec_witness :
    (⟨3, 7⟩ : pcg32_random_t).state < 2 ^ 64 ∧
      ((pcg32_random_r ⟨3, 7⟩).2.state
          = ((3 : Nat) * 6364136223846793005 + ((7 : Nat) ||| 1)) % 2 ^ 64
        ∧ (pcg32_random_r ⟨3, 7⟩).2.inc = 7
        ∧ (pcg32_random_r ⟨3, 7⟩).1
            = ror32 (((((3 : Nat) >>> 18) ^^^ 3) >>> 27) % 2 ^ 32) ((3 : Nat) >>> 59)
        ∧ (∀ x rot, x < 2 ^ 32 → rot ≤ 31 → rotExprC x rot = ror32 x rot)
        ∧ (∀ x, x < 2 ^ 32 → rotExprC x 0 = x)) :=
  ⟨by norm_num, pcg32_random_r_spec ⟨3, 7⟩ (by norm_num)⟩

theorem lor_one_idem (a : Nat) : (a ||| 1) ||| 1 = a ||| 1 := by
  rw [Nat.or_assoc, Nat.or_self]

theorem srandom_r_eq_srandom (x y : Nat) : pcg32_srandom_r x y = pcg32_srandom x y := by
  have hi : (((y <<< 1) % 2 ^ 64) ||| 1) ||| 1 = ((y <<< 1) % 2 ^ 64) ||| 1 := lor_one_idem _
  unfold pcg32_srandom_r pcg32_srandom pcg32_random_r pcg32_random
  simp only [hi]

theorem srandom_r_state_closed (x y : Nat) :
    (pcg32_srandom_r x y).state
      = ((2 * y + 1 + x) * 6364136223846793005 + (2 * y + 1)) % 2 ^ 64 := by
  have h64 : (2 : Nat) ^ 64 = 18446744073709551616 := by norm_num
  have hsh : y <<< 1 = 2 * y := by rw [Nat.shiftLeft_eq]; ring
  have hin : ((y <<< 1) % 2 ^ 64) ||| 1 = (2 * y + 1) % 2 ^ 64 := by
    rw [hsh, even_lor_one (by omega)]
    omega
  have hi : (((y <<< 1) % 2 ^ 64) ||| 1) ||| 1 = ((y <<< 1) % 2 ^ 64) ||| 1 := lor_one_idem _
  unfold pcg32_srandom_r pcg32_random_r
  simp only [hi]
  rw [hin]
  have h0 : (0 * 6364136223846793005 + (2 * y + 1) % 2 ^ 64) % 2 ^ 64
      = (2 * y + 1) % 2 ^ 64 := by
    rw [h64]; omega
  rw [h0]
  have h1 : ((2 * y + 1) % 2 ^ 64 + x % 2 ^ 64) % 2 ^ 64 ≡ 2 * y + 1 + x [MOD 2 ^ 64] :=
    (Nat.mod_modEq _ _).trans ((Nat.mod_modEq _ _).add (Nat.mod_modEq x _))
  exact (h1.mul_right _).add (Nat.mod_modEq _ _)

/-- C2: `pcg32_srandom_r` / `pcg32_srandom` leaves the generator with
`increment = (initseq << 1) | 1` and with the state reached by zeroing the
state, stepping once, adding `initstate`, and stepping again — which equals
`(((initseq << 1 | 1) + initstate) * 6364136223846793005 + (initseq << 1 | 1))
mod 2 ^ 64` (all register values taken modulo `2 ^ 64`). -/
theorem pcg32_srandom_r_spec (initstate initseq : Nat) :
    (pcg32_srandom_r initstate initseq).inc = ((initseq <<< 1) ||| 1) % 2 ^ 64
    ∧ (pcg32_srandom_r initstate initseq).state
        = ((((initseq <<< 1) ||| 1) + initstate) * 6364136223846793005
            + ((initseq <<< 1) ||| 1)) % 2 ^ 64 := by
  have h64 : (2 : Nat) ^ 64 = 18446744073709551616 := by norm_num
  have hsh : initseq <<< 1 = 2 * initseq := by rw [Nat.shiftLeft_eq]; ring
  have hlit : (initseq <<< 1) ||| 1 = 2 * initseq + 1 := by
    rw [hsh]; exact even_lor_one (by omega)
  constructor
  · show ((initseq <<< 1) % 2 ^ 64) ||| 1 = _
    rw [hlit, hsh, even_lor_one (by omega)]
    omega
  · rw [srandom_r_state_closed, hlit]

/-- C3: seeding with `(initstate = 42, initseq = 54)` reproduces the first six
outputs of the published PCG32 reference test vector. -/
theorem pcg32_reference_vectors :
    pcgOutputs 6 (pcg32_srandom_r 42 54)
      = [0xa15c02b7, 0x7b47f409, 0xba1d3330, 0x83d2f293, 0xbfa4784b, 0xcbed606e] := by
  decide

/-- C4: immediately after seeding, the increment has its low bit set, a
`pcg32_random_r` call never modifies the increment field, and hence the
increment of the seeded generator stays odd (and fixed) after any number of
draws. -/
theorem increment_odd_invariant (x y : Nat) :
    (pcg32_srandom_r x y).inc &&& 1 = 1
    ∧ (∀ st : pcg32_random_t, (pcg32_random_r st).2.inc = st.inc)
    ∧ (∀ n : Nat, (pcgStepR^[n] (pcg32_srandom_r x y)).inc = (pcg32_srandom_r x y).inc
        ∧ (pcgStepR^[n] (pcg32_srandom_r x y)).inc &&& 1 = 1) := by
  have hinc : (pcg32_srandom_r x y).inc &&& 1 = 1 := by
    show (((y <<< 1) % 2 ^ 64) ||| 1) &&& 1 = 1
    rw [Nat.and_one_is_mod]
    exact lor_one_mod_two _
  refine ⟨hinc, fun st => rfl, fun n => ?_⟩
  induction n with
  | zero => exact ⟨rfl, hinc⟩
  | succ n ih =>
    rw [Function.iterate_succ_apply']
    exact ⟨ih.1, ih.2⟩

/-- C5: `myrand` returns `next_u32() / 2 ^ 32` (the divisor
`(double) UINT32_MAX + 1.0` equals `2 ^ 32`), and the value always lies in
`[0, 1)`, the upper bound strict because the numerator is at most
`2 ^ 32 - 1`. -/
theorem myrand_uniform_bound (st : pcg32_random_t) :
    (myrand st).1 = ((pcg32_random_r st).1 : ℚ) / 2 ^ 32
    ∧ 0 ≤ (myrand st).1 ∧ (myrand st).1 < 1 := by
  have hdiv : ((2 ^ 32 - 1 : ℚ) + 1) = 2 ^ 32 := by norm_num
  have hval : (myrand st).1 = ((pcg32_random_r st).1 : ℚ) / 2 ^ 32 := by
    unfold myrand
    rw [hdiv]
  have hlt : (pcg32_random_r st).1 < 2 ^ 32 := by
    rw [pcg32_random_r_fst]; exact pcgOut_lt _
  refine ⟨hval, ?_, ?_⟩
  · rw [hval]
    positivity
  · rw [hval]
    rw [div_lt_one (by positivity)]
    exact_mod_cast hlt

/-- C6 counterexample: at the generator state `{state = 0, inc = 0}` the
`pcg32_random_r` copies (which add `inc | 1`) and the `pcg32_random` copies
(which add `inc` plainly) produce different successor states, so the four
hand-copied routines do not compute identical results on every state. -/
theorem variants_differ_on_even_inc :
    (pcg32_random_r ⟨0, 0⟩).2 ≠ (pcg32_random ⟨0, 0⟩).2 := by
  decide

/-- C6 amended: the four copies always return the same 32-bit output (it only
depends on the pre-transition state), and whenever the increment is odd — as
it always is after seeding — they also produce the same successor state; the
two families differ only on even increments. -/
theorem variants_agree_on_odd_inc (st : pcg32_random_t) :
    (pcg32_random_r st).1 = (pcg32_random st).1
    ∧ (st.inc % 2 = 1 → pcg32_random_r st = pcg32_random st) := by
  refine ⟨rfl, fun hodd => ?_⟩
  unfold pcg32_random_r pcg32_random
  rw [odd_lor_one hodd]

theorem variants_agree_on_odd_inc_witness :
    ((⟨5, 3⟩ : pcg32_random_t).inc % 2 = 1)
    ∧ pcg32_random_r ⟨5, 3⟩ = pcg32_random ⟨5, 3⟩ :=
  ⟨by decide, (variants_agree_on_odd_inc ⟨5, 3⟩).2 (by decide)⟩

/-- C7 counterexample: the two distinct sequence selectors `0` and `2 ^ 63`
shifted left by one wrap to the same increment, so the seeded generators are
identical and the first draws coincide instead of differing. -/
theorem streams_collide_on_high_bit :
    (0 : Nat) ≠ 2 ^ 63
    ∧ (pcg32_random_r (pcg32_srandom_r 0 0)).1
        = (pcg32_random_r (pcg32_srandom_r 0 (2 ^ 63))).1 := by
  constructor
  · decide
  · decide

theorem srandom_seq_le (x t2 d : Nat) :
    (2 * t2 + 1 + x) * 6364136223846793005 + (2 * t2 + 1)
      ≤ (2 * (t2 + d) + 1 + x) * 6364136223846793005 + (2 * (t2 + d) + 1) := by
  have h1 : 2 * t2 + 1 + x ≤ 2 * (t2 + d) + 1 + x := by omega
  have h2 := Nat.mul_le_mul_right 6364136223846793005 h1
  omega

theorem srandom_seq_sub (x t2 d : Nat) :
    ((2 * (t2 + d) + 1 + x) * 6364136223846793005 + (2 * (t2 + d) + 1))
      - ((2 * t2 + 1 + x) * 6364136223846793005 + (2 * t2 + 1))
      = 4 * (d * 3182068111923396503) := by
  have h1 : (2 * (t2 + d) + 1 + x) * 6364136223846793005
      = (2 * t2 + 1 + x) * 6364136223846793005 + d * 12728272447693586010 := by
    ring
  rw [h1]
  omega

/-- C7 amended: two instances seeded with the same `initstate` and sequence
selectors that are not congruent modulo `2 ^ 62` end up in different internal
states after seeding (selectors congruent modulo `2 ^ 62` can collide: the
top bit of `initseq` is discarded by the shift and a difference of `2 ^ 62` is
annihilated by the multiplier structure, as the counterexample shows; and even
distinct states need not differ in their first 32-bit output). -/
theorem streams_distinct_of_initseq_ne (x s1 s2 : Nat)
    (h : s1 % 2 ^ 62 ≠ s2 % 2 ^ 62) :
    (pcg32_srandom_r x s1).state ≠ (pcg32_srandom_r x s2).state := by
  have key : ∀ t2 d : Nat,
      (pcg32_srandom_r x (t2 + d)).state = (pcg32_srandom_r x t2).state →
      (t2 + d) % 2 ^ 62 = t2 % 2 ^ 62 := by
    intro t2 d heq
    rw [srandom_r_state_closed, srandom_r_state_closed] at heq
    have hdvd : 2 ^ 64 ∣ ((2 * (t2 + d) + 1 + x) * 6364136223846793005 + (2 * (t2 + d) + 1))
        - ((2 * t2 + 1 + x) * 6364136223846793005 + (2 * t2 + 1)) :=
      (Nat.modEq_iff_dvd' (srandom_seq_le x t2 d)).mp heq.symm
    rw [srandom_seq_sub] at hdvd
    rw [show (2 : Nat) ^ 64 = 4 * 2 ^ 62 from by norm_num] at hdvd
    have hdvd2 : 2 ^ 62 ∣ d * 3182068111923396503 :=
      (Nat.mul_dvd_mul_iff_left (show (0 : Nat) < 4 from by norm_num)).mp hdvd
    have hcop : Nat.Coprime (2 ^ 62) 3182068111923396503 := by decide
    obtain ⟨k, hk⟩ := hcop.dvd_of_dvd_mul_right hdvd2
    rw [hk, Nat.add_mul_mod_self_left]
  intro heq
  rcases le_total s2 s1 with hle | hle
  · obtain ⟨d, rfl⟩ : ∃ d, s1 = s2 + d := ⟨s1 - s2, (Nat.add_sub_cancel' hle).symm⟩
    exact h (key s2 d heq)
  · obtain ⟨d, rfl⟩ : ∃ d, s2 = s1 + d := ⟨s2 - s1, (Nat.add_sub_cancel' hle).symm⟩
    exact h ((key s1 d heq.symm).symm)

theorem streams_distinct_of_initseq_ne_witness :
    ((0 : Nat) % 2 ^ 62 ≠ 1 % 2 ^ 62)
    ∧ (pcg32_srandom_r 0 0).state ≠ (pcg32_srandom_r 0 1).state :=
  ⟨by decide, streams_distinct_of_initseq_ne 0 0 1 (by decide)⟩

theorem walkRunLoop_eq (rest : Nat) : ∀ (run : Nat) (m : pcg32_random_t),
    walkRunLoop run rest m = (List.range rest).flatMap (fun i =>
      [RngEvent.generateSeed (pcg32_random (pcgStepB^[2 * i] m)).1,
       RngEvent.generateSeed (pcg32_random (pcgStepB^[2 * i + 1] m)).1,
       RngEvent.myrandInit (pcg32_random (pcgStepB^[2 * i] m)).1
         (pcg32_random (pcgStepB^[2 * i + 1] m)).1,
       RngEvent.runDraws (run + i)]) := by
  induction rest with
  | zero => intro run m; rfl
  | succ rest ih =>
    intro run m
    have hcomp : ∀ i : Nat,
        pcgStepB^[i] ((pcg32_random (pcg32_random m).2).2) = pcgStepB^[i + 2] m := by
      intro i
      rw [Function.iterate_add_apply]
      rfl
    simp only [walkRunLoop]
    rw [List.range_succ_eq_map, List.flatMap_cons, List.flatMap_map,
      ih (run + 1) ((pcg32_random (pcg32_random m).2).2)]
    simp only [List.cons_append, List.nil_append]
    congr 4
    apply congrArg
    funext i
    rw [hcomp (2 * i), hcomp (2 * i + 1)]
    have h1 : 2 * Nat.succ i = 2 * i + 2 := by omega
    have h2 : 2 * i + 1 + 2 = 2 * i + 2 + 1 := by omega
    have h3 : run + 1 + i = run + Nat.succ i := by omega
    rw [h1, h2, h3]

theorem walkRunLoop_countP (rest : Nat) : ∀ (run : Nat) (m : pcg32_random_t),
    (walkRunLoop run rest m).countP isMyrandInit = rest := by
  induction rest with
  | zero => intro run m; rfl
  | succ rest ih =>
    intro run m
    simp only [walkRunLoop, List.countP_cons, isMyrandInit, ih]
    simp

theorem diffCoefRngTrace_countP (n : Nat) :
    (diffCoefRngTrace n).countP isMyrandInit = 1 := by
  unfold diffCoefRngTrace
  simp only [List.countP_cons, isMyrandInit]
  have h0 : ((List.range n).map RngEvent.runDraws).countP isMyrandInit = 0 := by
    rw [List.countP_eq_zero]
    intro a ha
    obtain ⟨i, _, rfl⟩ := List.mem_map.mp ha
    simp [isMyrandInit]
  rw [h0]
  simp

/-- C9 counterexample: in the diffusion-coefficient program the worker
generator is initialized exactly once, before the sample loop, so with two
samples the trace contains one `myrand_init` instead of one per sample — the
claim that every program reseeds the worker once per simulation run fails on
`diff_coef.c`. -/
theorem diffCoef_seeds_once_counterexample :
    (diffCoefRngTrace 2).countP isMyrandInit = 1 ∧ (1 : Nat) ≠ 2 :=
  ⟨diffCoefRngTrace_countP 2, by decide⟩

/-- C9 amended: the 1D and 2D random-walk programs do derive a fresh pair of
master outputs and initialize the worker once per run before that run's draws
(run `r` consumes master outputs `2r` and `2r + 1`), but the
diffusion-coefficient program initializes its worker exactly once for all
samples. -/
theorem per_run_seeding_spec (runs n : Nat) :
    mainDatRngTrace runs
      = RngEvent.seedgenInit 12345 67890
        :: (List.range runs).flatMap (fun r =>
          [RngEvent.generateSeed (masterOut (2 * r)),
           RngEvent.generateSeed (masterOut (2 * r + 1)),
           RngEvent.myrandInit (masterOut (2 * r)) (masterOut (2 * r + 1)),
           RngEvent.runDraws r])
    ∧ (mainDatRngTrace runs).countP isMyrandInit = runs
    ∧ (diffCoefRngTrace n).countP isMyrandInit = 1 := by
  refine ⟨?_, ?_, diffCoefRngTrace_countP n⟩
  · unfold mainDatRngTrace masterOut
    rw [walkRunLoop_eq runs 0 (pcg32_srandom 12345 67890)]
    simp only [Nat.zero_add]
  · unfold mainDatRngTrace
    simp only [List.countP_cons, isMyrandInit, walkRunLoop_countP]
    simp

theorem plusNeighbor_lt {L i : Nat} (h : i < L) : plusNeighbor L i < L := by
  unfold plusNeighbor
  split <;> omega

theorem minusNeighbor_lt {L i : Nat} (h : i < L) : minusNeighbor L i < L := by
  unfold minusNeighbor
  split <;> omega

theorem updateAttempt_spec (L trueN : Nat) (st : LatticeState) (r1 r2 : Nat)
    (hinv : LatticeInv L trueN st) (h1 : r1 < 2 ^ 32) (hN : 0 < trueN) :
    LatticeInv L trueN (updateAttempt L trueN st r1 r2)
    ∧ (updateAttempt L trueN st r1 r2).zeroPos = st.zeroPos := by
  obtain ⟨hpart, hsite⟩ := hinv
  have hp : r1 * trueN / 2 ^ 32 < trueN :=
    Nat.div_lt_of_lt_mul ((Nat.mul_lt_mul_right hN).mpr h1)
  obtain ⟨hx, hy, hsp⟩ := hpart _ hp
  simp only [updateAttempt, LatticeInv]
  set p := r1 * trueN / 2 ^ 32 with hpdef
  set x := (st.pos p).1 with hxdef
  set y := (st.pos p).2 with hydef
  set dir := 4 * r2 / 2 ^ 32 with hddef
  set nx := if dir = 0 then plusNeighbor L x else if dir = 1 then minusNeighbor L x else x
    with hnxdef
  set ny := if dir = 2 then plusNeighbor L y else if dir = 3 then minusNeighbor L y else y
    with hnydef
  have hnx : nx < L := by
    rw [hnxdef]
    split_ifs
    · exact plusNeighbor_lt hx
    · exact minusNeighbor_lt hx
    · exact hx
  have hny : ny < L := by
    rw [hnydef]
    split_ifs
    · exact plusNeighbor_lt hy
    · exact minusNeighbor_lt hy
    · exact hy
  by_cases hocc : st.site nx ny ≠ MY_EMPTY
  · rw [if_pos hocc]
    exact ⟨⟨hpart, hsite⟩, rfl⟩
  · rw [if_neg hocc]
    push_neg at hocc
    refine ⟨⟨?_, ?_⟩, rfl⟩
    · intro q hq
      by_cases hqp : q = p
      · subst hqp
        simp only [if_pos rfl]
        exact ⟨hnx, hny, by simp⟩
      · obtain ⟨hqx, hqy, hqsite⟩ := hpart q hq
        have hne1 : ¬((st.pos q).1 = nx ∧ (st.pos q).2 = ny) := by
          rintro ⟨e1, e2⟩
          rw [e1, e2, hocc] at hqsite
          simp only [MY_EMPTY] at hqsite
          omega
        have hne2 : ¬((st.pos q).1 = x ∧ (st.pos q).2 = y) := by
          rintro ⟨e1, e2⟩
          rw [e1, e2, hsp] at hqsite
          have : q = p := by exact_mod_cast hqsite.symm
          exact hqp this
        simp only [if_neg hqp]
        exact ⟨hqx, hqy, by simp only [if_neg hne1, if_neg hne2]; exact hqsite⟩
    · intro a b ha hb
      by_cases hab1 : a = nx ∧ b = ny
      · right
        obtain ⟨rfl, rfl⟩ := hab1
        exact ⟨p, hp, by simp, by simp⟩
      · by_cases hab2 : a = x ∧ b = y
        · left
          simp only [if_neg hab1, if_pos hab2]
        · rcases hsite a b ha hb with he | ⟨q, hq, hsq, hpq⟩
          · left
            simp only [if_neg hab1, if_neg hab2]
            exact he
          · right
            have hqp : q ≠ p := by
              rintro rfl
              apply hab2
              rw [hxdef, hydef, hpq]
              exact ⟨rfl, rfl⟩
            refine ⟨q, hq, ?_, ?_⟩
            · simp only [if_neg hab1, if_neg hab2]
              exact hsq
            · simp only [if_neg hqp]
              exact hpq

theorem updateLattice_inv_aux (L trueN : Nat) (hN : 0 < trueN) :
    ∀ (draws : List (Nat × Nat)) (st : LatticeState), LatticeInv L trueN st →
      (∀ d ∈ draws, d.1 < 2 ^ 32) →
      LatticeInv L trueN (updateLattice L trueN st draws)
      ∧ (updateLattice L trueN st draws).zeroPos = st.zeroPos := by
  intro draws
  induction draws with
  | nil => exact fun st hinv _ => ⟨hinv, rfl⟩
  | cons d rest ih =>
    intro st hinv hdraws
    have hstep := updateAttempt_spec L trueN st d.1 d.2 hinv (hdraws d (by simp)) hN
    have hrest := ih (updateAttempt L trueN st d.1 d.2) hstep.1
      (fun e he => hdraws e (by simp [he]))
    exact ⟨hrest.1, hrest.2.trans hstep.2⟩

/-- C10: `updateLattice(trueN)` preserves the lattice consistency invariant:
if every particle `p < trueN` is recorded consistently (in-range position,
`SITE(POS(p)) = p`) and every site is empty or holds such a particle, the same
holds after the sweep (a hop only moves a particle to a previously empty
neighbouring site, so no particle is created, destroyed, or duplicated), and
`zeroPositionOfParticle` is left unchanged. The sweep performs one attempt per
particle, each consuming the numerators of two uniform draws. -/
theorem updateLattice_preserves_inv (L trueN : Nat) (st : LatticeState)
    (draws : List (Nat × Nat)) (hinv : LatticeInv L trueN st)
    (hdraws : ∀ d ∈ draws, d.1 < 2 ^ 32 ∧ d.2 < 2 ^ 32)
    (hlen : draws.length = trueN) :
    LatticeInv L trueN (updateLattice L trueN st draws)
    ∧ (updateLattice L trueN st draws).zeroPos = st.zeroPos := by
  rcases draws with _ | ⟨d, rest⟩
  · exact ⟨hinv, rfl⟩
  · have hN : 0 < trueN := by rw [← hlen]; simp
    exact updateLattice_inv_aux L trueN hN (d :: rest) st hinv
      (fun e he => (hdraws e he).1)

theorem updateLattice_preserves_inv_witness :
    LatticeInv 1 1 latticeOneParticle
    ∧ (LatticeInv 1 1 (updateLattice 1 1 latticeOneParticle [(0, 0)])
        ∧ (updateLattice 1 1 latticeOneParticle [(0, 0)]).zeroPos
            = latticeOneParticle.zeroPos) := by
  have hinv : LatticeInv 1 1 latticeOneParticle := by
    constructor
    · intro p hp
      have hp0 : p = 0 := by omega
      subst hp0
      exact ⟨by decide, by decide, by decide⟩
    · intro a b ha hb
      have ha0 : a = 0 := by omega
      have hb0 : b = 0 := by omega
      subst ha0
      subst hb0
      right
      exact ⟨0, by omega, by decide, rfl⟩
  refine ⟨hinv, updateLattice_preserves_inv 1 1 latticeOneParticle [(0, 0)] hinv ?_ rfl⟩
  intro d hd
  have : d = (0, 0) := by simpa using hd
  rw [this]
  exact ⟨by norm_num, by norm_num⟩

theorem lcgStep_comp (a c : Nat) :
    lcgStep a c ∘ lcgStep a c = lcgStep ((a * a) % 2 ^ 64) ((a * c + c) % 2 ^ 64) := by
  funext s
  show ((s * a + c) % 2 ^ 64 * a + c) % 2 ^ 64
      = (s * ((a * a) % 2 ^ 64) + (a * c + c) % 2 ^ 64) % 2 ^ 64
  have h1 : (s * a + c) % 2 ^ 64 * a + c ≡ (s * a + c) * a + c [MOD 2 ^ 64] :=
    ((Nat.mod_modEq _ _).mul_right a).add_right c
  have h2 : s * ((a * a) % 2 ^ 64) + (a * c + c) % 2 ^ 64
      ≡ s * (a * a) + (a * c + c) [MOD 2 ^ 64] :=
    ((Nat.mod_modEq _ _).mul_left s).add (Nat.mod_modEq _ _)
  have h3 : (s * a + c) * a + c = s * (a * a) + (a * c + c) := by ring
  exact h1.trans (by rw [h3]; exact h2.symm)

theorem lcgJump_eq (fuel : Nat) : ∀ (a c n s : Nat), n < 2 ^ fuel →
    lcgJump fuel a c n s = (lcgStep a c)^[n] s := by
  induction fuel with
  | zero =>
    intro a c n s hn
    have h0 : n = 0 := by
      have : (2 : Nat) ^ 0 = 1 := by norm_num
      omega
    subst h0
    rfl
  | succ fuel ih =>
    intro a c n s hn
    by_cases h0 : n = 0
    · subst h0
      simp [lcgJump]
    · have hn2 : n / 2 < 2 ^ fuel := by
        have hpw : (2 : Nat) ^ (fuel + 1) = 2 * 2 ^ fuel := by rw [pow_succ]; ring
        omega
      simp only [lcgJump, if_neg h0]
      rw [ih _ _ _ _ hn2, ← lcgStep_comp]
      have hff : lcgStep a c ∘ lcgStep a c = (lcgStep a c)^[2] := by
        rw [show (2 : Nat) = 1 + 1 from rfl, Function.iterate_add, Function.iterate_one]
      rw [hff, ← Function.iterate_mul]
      rcases Nat.mod_two_eq_zero_or_one n with he | ho
      · rw [if_neg (by omega)]
        have h2 : 2 * (n / 2) = n := by omega
        rw [h2]
      · rw [if_pos ho]
        have h2 : n = 2 * (n / 2) + 1 := by omega
        conv_rhs => rw [h2]
        rw [Function.iterate_succ_apply']
        rfl

theorem pcgStepB_iterate (st : pcg32_random_t) : ∀ n : Nat,
    pcgStepB^[n] st = ⟨(lcgStep 6364136223846793005 st.inc)^[n] st.state, st.inc⟩ := by
  intro n
  induction n with
  | zero => rfl
  | succ n ih =>
    rw [Function.iterate_succ_apply', Function.iterate_succ_apply', ih]
    rfl

theorem lcgGeomSum_add (a m n : Nat) :
    lcgGeomSum a (m + n) = lcgGeomSum a n + a ^ n * lcgGeomSum a m := by
  induction n with
  | zero => simp [lcgGeomSum]
  | succ n ih =>
    have h : m + (n + 1) = (m + n) + 1 := by omega
    rw [h]
    simp only [lcgGeomSum]
    rw [ih]
    ring

theorem lcgGeomSum_two_mul (a m : Nat) :
    lcgGeomSum a (2 * m) = lcgGeomSum a m * (1 + a ^ m) := by
  have h : 2 * m = m + m := by omega
  rw [h, lcgGeomSum_add]
  ring

theorem lcgGeomSum_mod_two (a n : Nat) (ha : a % 2 = 1) : lcgGeomSum a n % 2 = n % 2 := by
  induction n with
  | zero => rfl
  | succ n ih =>
    simp only [lcgGeomSum]
    rw [Nat.add_mod, Nat.mul_mod, ih, ha]
    omega

theorem pow_mod_four_eq_one {a : Nat} (ha : a % 4 = 1) (m : Nat) : a ^ m % 4 = 1 := by
  induction m with
  | zero => rfl
  | succ m ih =>
    rw [pow_succ, Nat.mul_mod, ih, ha]

theorem two_pow_dvd_lcgGeomSum_iff {a : Nat} (ha : a % 4 = 1) :
    ∀ n k : Nat, 2 ^ k ∣ lcgGeomSum a n ↔ 2 ^ k ∣ n := by
  intro n
  induction n using Nat.strong_induction_on with
  | _ n ih =>
    intro k
    rcases Nat.eq_zero_or_pos n with rfl | hn
    · simp [lcgGeomSum]
    rcases Nat.mod_two_eq_zero_or_one n with he | ho
    · obtain ⟨m, rfl⟩ : ∃ m, n = 2 * m := ⟨n / 2, by omega⟩
      have hm : 0 < m := by omega
      have hpow : a ^ m % 4 = 1 := pow_mod_four_eq_one ha m
      obtain ⟨u, hu, huodd⟩ : ∃ u, 1 + a ^ m = 2 * u ∧ u % 2 = 1 :=
        ⟨(1 + a ^ m) / 2, by omega, by omega⟩
      rw [lcgGeomSum_two_mul, hu]
      cases k with
      | zero => simp
      | succ k =>
        have e1 : lcgGeomSum a m * (2 * u) = 2 * (lcgGeomSum a m * u) := by ring
        rw [e1, pow_succ, mul_comm ((2 : Nat) ^ k) 2,
          Nat.mul_dvd_mul_iff_left (by norm_num : (0 : Nat) < 2),
          Nat.mul_dvd_mul_iff_left (by norm_num : (0 : Nat) < 2)]
        have hcop : Nat.Coprime (2 ^ k) u :=
          Nat.Coprime.pow_left k (Nat.coprime_two_left.mpr (Nat.odd_iff.mpr huodd))
        constructor
        · intro hd
          exact (ih m (by omega) k).mp (hcop.dvd_of_dvd_mul_right hd)
        · intro hd
          exact Dvd.dvd.mul_right ((ih m (by omega) k).mpr hd) u
    · have hgodd : lcgGeomSum a n % 2 = 1 := by
        rw [lcgGeomSum_mod_two a n (by omega)]
        exact ho
      cases k with
      | zero => simp
      | succ k =>
        constructor
        · intro hd
          exfalso
          have h2 : (2 : Nat) ∣ lcgGeomSum a n :=
            dvd_trans ⟨2 ^ k, by rw [pow_succ]; ring⟩ hd
          omega
        · intro hd
          exfalso
          have h2 : (2 : Nat) ∣ n := dvd_trans ⟨2 ^ k, by rw [pow_succ]; ring⟩ hd
          omega

theorem lcgStep_iterate_modEq (a c s : Nat) :
    ∀ n : Nat, (lcgStep a c)^[n] s ≡ a ^ n * s + lcgGeomSum a n * c [MOD 2 ^ 64] := by
  intro n
  induction n with
  | zero =>
    simp only [Function.iterate_zero, id_eq, pow_zero, one_mul, lcgGeomSum, zero_mul,
      Nat.add_zero]
    exact Nat.ModEq.refl s
  | succ n ih =>
    rw [Function.iterate_succ_apply']
    show ((lcgStep a c)^[n] s * a + c) % 2 ^ 64 ≡ _ [MOD 2 ^ 64]
    calc ((lcgStep a c)^[n] s * a + c) % 2 ^ 64
        ≡ (lcgStep a c)^[n] s * a + c [MOD 2 ^ 64] := Nat.mod_modEq _ _
      _ ≡ (a ^ n * s + lcgGeomSum a n * c) * a + c [MOD 2 ^ 64] := (ih.mul_right a).add_right c
      _ = a ^ (n + 1) * s + lcgGeomSum a (n + 1) * c := by
          simp only [lcgGeomSum]
          ring

theorem pow_eq_geom_mul_add (b : Nat) : ∀ n : Nat, (b + 1) ^ n = b * lcgGeomSum (b + 1) n + 1 := by
  intro n
  induction n with
  | zero => simp [lcgGeomSum]
  | succ n ih =>
    rw [pow_succ, ih]
    simp only [lcgGeomSum]
    ring

theorem lcgStep_iterate_lt (a c s : Nat) (hs : s < 2 ^ 64) (n : Nat) :
    (lcgStep a c)^[n] s < 2 ^ 64 := by
  cases n with
  | zero => exact hs
  | succ n =>
    rw [Function.iterate_succ_apply']
    exact Nat.mod_lt _ (by norm_num)

theorem lcgStep_fixed_dvd {a c t d : Nat} (ha : a % 4 = 1) (hc : c % 2 = 1)
    (hfix : (lcgStep a c)^[d] t = t) : 2 ^ 64 ∣ d := by
  obtain ⟨b, rfl⟩ : ∃ b, a = b + 1 := ⟨a - 1, by omega⟩
  have h1 := lcgStep_iterate_modEq (b + 1) c t d
  rw [hfix] at h1
  have hle : t ≤ (b + 1) ^ d * t + lcgGeomSum (b + 1) d * c := by
    have hp : 1 ≤ (b + 1) ^ d := Nat.one_le_pow d (b + 1) (by omega)
    have h2 : 1 * t ≤ (b + 1) ^ d * t := Nat.mul_le_mul_right t hp
    omega
  have hdvd : 2 ^ 64 ∣ ((b + 1) ^ d * t + lcgGeomSum (b + 1) d * c) - t :=
    (Nat.modEq_iff_dvd' hle).mp h1
  have hexp : ((b + 1) ^ d * t + lcgGeomSum (b + 1) d * c) - t
      = lcgGeomSum (b + 1) d * (b * t + c) := by
    have h2 : (b * lcgGeomSum (b + 1) d + 1) * t + lcgGeomSum (b + 1) d * c
        = lcgGeomSum (b + 1) d * (b * t + c) + t := by ring
    rw [pow_eq_geom_mul_add, h2, Nat.add_sub_cancel]
  rw [hexp] at hdvd
  have hb : b % 2 = 0 := by omega
  have hbt : (b * t) % 2 = 0 := by
    rw [Nat.mul_mod, hb]
    simp
  have hw : (b * t + c) % 2 = 1 := by omega
  have hcop : Nat.Coprime (2 ^ 64) (b * t + c) :=
    Nat.Coprime.pow_left _ (Nat.coprime_two_left.mpr (Nat.odd_iff.mpr hw))
  have hdvdG : 2 ^ 64 ∣ lcgGeomSum (b + 1) d := hcop.dvd_of_dvd_mul_right hdvd
  exact (two_pow_dvd_lcgGeomSum_iff ha d 64).mp hdvdG

/-- C8 amended: the map from the pair-call index to the returned 32-bit pair
is not injective over the period (counterexample below), but the master's
internal state at the start of each `derive_run_seeds` call is: across the
`2 ^ 63` pair indices of the period, no generator state repeats, for every
master seeding. -/
theorem master_state_injective_on_period (x y n m : Nat)
    (hn : n < 2 ^ 63) (hm : m < 2 ^ 63)
    (h : masterStateBeforePair x y n = masterStateBeforePair x y m) : n = m := by
  have key : ∀ n m : Nat, n ≤ m → m < 2 ^ 63 →
      masterStateBeforePair x y n = masterStateBeforePair x y m → n = m := by
    intro n m hle hm heq
    have hodd : (pcg32_srandom x y).inc % 2 = 1 := by
      show (((y <<< 1) % 2 ^ 64) ||| 1) % 2 = 1
      exact lor_one_mod_two _
    unfold masterStateBeforePair at heq
    rw [pcgStepB_iterate, pcgStepB_iterate] at heq
    have heqs : (lcgStep 6364136223846793005 (pcg32_srandom x y).inc)^[2 * n]
          (pcg32_srandom x y).state
        = (lcgStep 6364136223846793005 (pcg32_srandom x y).inc)^[2 * m]
          (pcg32_srandom x y).state := congrArg pcg32_random_t.state heq
    have hsplit : 2 * m = (2 * m - 2 * n) + 2 * n := by omega
    rw [hsplit, Function.iterate_add_apply] at heqs
    have hdvd : 2 ^ 64 ∣ (2 * m - 2 * n) :=
      lcgStep_fixed_dvd (by norm_num) hodd heqs.symm
    have e1 : (2 : Nat) ^ 64 = 18446744073709551616 := by norm_num
    have e2 : (2 : Nat) ^ 63 = 9223372036854775808 := by norm_num
    rw [e1] at hdvd
    rw [e2] at hm
    omega
  rcases le_total n m with hle | hle
  · exact key n m hle hm h
  · exact (key m n hle hn h.symm).symm

theorem master_state_injective_on_period_witness :
    (0 : Nat) < 2 ^ 63 ∧ (0 : Nat) = 0 :=
  ⟨by norm_num, master_state_injective_on_period 1 2 0 0 (by norm_num) (by norm_num) rfl⟩

theorem seedPairAt_eval (x y n : Nat) (h : 2 * n + 1 < 2 ^ 64) :
    seedPairAt x y n
      = (pcgOut (lcgJump 64 6364136223846793005 (pcg32_srandom x y).inc (2 * n)
            (pcg32_srandom x y).state),
         pcgOut (lcgJump 64 6364136223846793005 (pcg32_srandom x y).inc (2 * n + 1)
            (pcg32_srandom x y).state)) := by
  unfold seedPairAt masterStateBeforePair
  rw [pcgStepB_iterate]
  rw [lcgJump_eq 64 _ _ _ _ (by omega), lcgJump_eq 64 _ _ _ _ h]
  rw [show 2 * n + 1 = (2 * n) + 1 from rfl, Function.iterate_succ_apply']
  rfl

set_option maxRecDepth 4000 in
/-- C8 counterexample: with the master seeded as
`seedgen_init(17046699361544073594, 0)`, the pair of consecutive 32-bit
outputs drawn at pair index `3335177363872847843` equals the pair drawn at
pair index `0`, although both indices lie among the period's `2 ^ 63` pair
indices — so successive `derive_run_seeds` calls do repeat a
`(seed_a, seed_b)` pair within the period. -/
theorem seed_pairs_repeat_within_period :
    (3335177363872847843 : Nat) ≠ 0
    ∧ (3335177363872847843 : Nat) < 2 ^ 63
    ∧ seedPairAt 17046699361544073594 0 3335177363872847843
        = seedPairAt 17046699361544073594 0 0 := by
  refine ⟨by norm_num, by norm_num, ?_⟩
  rw [seedPairAt_eval _ _ _ (by norm_num), seedPairAt_eval _ _ _ (by norm_num)]
  decide
